import Mathlib

/-!
Verification of the schedule navigation engine of `baka` (src/main.go), a
terminal viewer for a weekly anime broadcast schedule.

The Go code is shallowly embedded: strings become `String` or `List Char`,
Go `int` becomes `Int`, `time.Weekday` becomes a seven-constructor inductive
with Go's numbering (Sunday = 0 .. Saturday = 6), episode timestamps are
carried as seconds since the Unix epoch, and the effectful cache-or-fetch
pipeline (`fetchTimetableCmd`) becomes a pure function of an explicit
environment record describing the filesystem, clock, environment variables
and network.
-/

namespace Baka

/-- `time.Weekday`: Go numbers the days Sunday = 0 through Saturday = 6. -/
inductive Weekday where
  | sunday
  | monday
  | tuesday
  | wednesday
  | thursday
  | friday
  | saturday
deriving DecidableEq, Repr, Inhabited

/-- `time.Weekday.String()`. -/
def Weekday.name : Weekday → String
  | .sunday => "Sunday"
  | .monday => "Monday"
  | .tuesday => "Tuesday"
  | .wednesday => "Wednesday"
  | .thursday => "Thursday"
  | .friday => "Friday"
  | .saturday => "Saturday"

/-- `fmt.Sprintf("%-9s", s)`: left-justify in a field of width 9. -/
def padTo9 (s : String) : String :=
  s ++ String.mk (List.replicate (9 - s.length) ' ')

/-- `time.Time.Weekday()` for a timestamp carried as seconds since the Unix
epoch (1970-01-01 was a Thursday, Go weekday 4): the calendar weekday obtained
by day-count arithmetic.  `/` and `%` on `Int` are Euclidean, so the result of
`% 7` is always in `[0, 7)`; in particular a zero/garbage timestamp still
resolves to some weekday (0 resolves to Thursday). -/
def weekdayOfTimestamp (t : Int) : Weekday :=
  match ((t / 86400 + 4) % 7).toNat with
  | 0 => .sunday
  | 1 => .monday
  | 2 => .tuesday
  | 3 => .wednesday
  | 4 => .thursday
  | 5 => .friday
  | _ => .saturday

/-- The fields of `AnimeTimetable` that the navigation engine consumes
(`title`, `episodeDate`, `episodeNumber`, `airType`); the remaining fields are
opaque presentation metadata that the engine carries but never reads. -/
structure AnimeTimetable where
  title : String
  episodeDate : Int
  episodeNumber : Int
  airType : String
deriving DecidableEq, Repr

/-- `animeItem`: the list-item wrapper around one `AnimeTimetable`. -/
structure animeItem where
  anime : AnimeTimetable
deriving DecidableEq, Repr

/-- `appState`: `stateLoading` / `stateWeekly`. -/
inductive appState where
  | stateLoading
  | stateWeekly
deriving DecidableEq, Repr

/-- The filter state of the embedded `list.Model` from the bubbles library:
`Unfiltered`, `Filtering` (user is typing the filter), `FilterApplied`. -/
inductive FilterState where
  | unfiltered
  | filtering
  | filterApplied
deriving DecidableEq, Repr

/-- The slice of the external `list.Model` that `weeklyModel`'s code reads and
writes: the visible items, the title label, and the filter state/text. -/
structure ListState where
  items : List animeItem
  title : String
  filterState : FilterState
  filterValue : String
  filteringEnabled : Bool
deriving DecidableEq, Repr

/-- `weeklyModel`: the fields relevant to navigation (spinner, key maps and
window size are rendering-only and omitted). -/
structure weeklyModel where
  state : appState
  allAnime : List animeItem
  list : ListState
  focusedDay : Weekday
deriving DecidableEq, Repr

/-- The fixed `days` slice used by `getPreviousDay` and `getNextDay`:
Monday first, Sunday last. -/
def daysOrder : List Weekday :=
  [.monday, .tuesday, .wednesday, .thursday, .friday, .saturday, .sunday]

/-- `weeklyModel.getPreviousDay`, as a function of the focused day (the Go
method reads only `m.focusedDay`): scan `daysOrder` for the focused day and
step backwards, wrapping from Monday to Sunday; the unreachable fall-through
returns Monday. -/
def getPreviousDay (focusedDay : Weekday) : Weekday :=
  match daysOrder.findIdx? (fun day => day == focusedDay) with
  | some i =>
    if i == 0 then daysOrder.getD (daysOrder.length - 1) .monday
    else daysOrder.getD (i - 1) .monday
  | none => .monday

/-- `weeklyModel.getNextDay`, as a function of the focused day: scan
`daysOrder` for the focused day and step forwards, wrapping from Sunday to
Monday; the unreachable fall-through returns Monday. -/
def getNextDay (focusedDay : Weekday) : Weekday :=
  match daysOrder.findIdx? (fun day => day == focusedDay) with
  | some i =>
    if i == daysOrder.length - 1 then daysOrder.getD 0 .monday
    else daysOrder.getD (i + 1) .monday
  | none => .monday

/-- `strings.HasPrefix`-style check used to embed `strings.Contains`: does the
second list start with the first? -/
def startsWith : List Char → List Char → Bool
  | [], _ => true
  | _ :: _, [] => false
  | q :: qs, c :: ts => q == c && startsWith qs ts

/-- `strings.Contains(t, q)`: `q` occurs as a contiguous segment of `t`. -/
def containsSub : List Char → List Char → Bool
  | [], q => startsWith q []
  | c :: ts, q => startsWith q (c :: ts) || containsSub ts q

/-- The subsequence-matching loop of `fuzzyScore` (src/main.go lines
120-128): scan the text left to right carrying the text index and the
accumulated score; each time the current text character equals the next
unmatched query character (case-insensitively), award
`10 + max 0 (50 - textIndex)` points and advance the query cursor.  Returns
the accumulated score and the unmatched remainder of the query. -/
def fuzzyLoop : List Char → List Char → Int → Int → Int × List Char
  | [], qrem, _, score => (score, qrem)
  | _ :: ts, [], textIndex, score => fuzzyLoop ts [] (textIndex + 1) score
  | c :: ts, qc :: qs, textIndex, score =>
    if c.toLower = qc.toLower then
      fuzzyLoop ts qs (textIndex + 1) (score + (10 + max 0 (50 - textIndex)))
    else
      fuzzyLoop ts (qc :: qs) (textIndex + 1) score

/-- `fuzzyScore(query, text)`: lower-case both sides; an empty query scores
1000; a contiguous substring match scores `100 + (100 - len(query))`;
otherwise run the subsequence loop and add a flat +20 bonus when the whole
query was consumed. -/
def fuzzyScore (query text : List Char) : Int :=
  let q := query.map Char.toLower
  let t := text.map Char.toLower
  if q = [] then 1000
  else if containsSub t q then 100 + (100 - (q.length : Int))
  else
    let r := fuzzyLoop t q 0 0
    if r.2 = [] then r.1 + 20 else r.1

/-- The query used to refute the "score strictly greater than 100" part of
C4: one hundred copies of `a`. -/
def c4Query : List Char := List.replicate 100 'a'

/-- `list.Rank`: an index into the candidate list plus the matched character
indexes, which `fuzzyFilter` always sets to nil. -/
structure Rank where
  index : Nat
  matchedIndexes : List Nat
deriving DecidableEq, Repr

/-- The collection loop of `fuzzyFilter`: walk the targets with their
positions, keeping `Rank` with index `i` and nil matched indexes for every
target whose `fuzzyScore` against the term is strictly positive. -/
def collectRanks (term : List Char) : List (List Char) → Nat → List Rank
  | [], _ => []
  | target :: rest, i =>
    if 0 < fuzzyScore term target then
      ⟨i, []⟩ :: collectRanks term rest (i + 1)
    else
      collectRanks term rest (i + 1)

/-- The inner loop of `fuzzyFilter`'s exchange sort for one outer index whose
slot currently holds `x`: walk the suffix; whenever the held element's key is
strictly smaller than the current element's, the two are swapped (the current
slot receives the held element and the larger one is carried onwards).
Returns the final held element — the maximum — and the suffix left behind. -/
def selectMax (key : Rank → Int) (x : Rank) : List Rank → Rank × List Rank
  | [] => (x, [])
  | y :: ys =>
    if key x < key y then
      ((selectMax key y ys).1, x :: (selectMax key y ys).2)
    else
      ((selectMax key x ys).1, y :: (selectMax key x ys).2)

/-- The nested sorting loops of `fuzzyFilter` (src/main.go lines 165-173),
written with an explicit fuel argument equal to the number of outer-loop
iterations, i.e. the list length, so that the recursion is structural;
`selectMax` preserves the length of the remainder, so the fuel never runs
out. -/
def exchSortAux (key : Rank → Int) : Nat → List Rank → List Rank
  | _, [] => []
  | 0, l => l
  | n + 1, x :: xs =>
    (selectMax key x xs).1 :: exchSortAux key n (selectMax key x xs).2

/-- The exchange sort of `fuzzyFilter`: descending by key, by repeated
swapping. -/
def exchSort (key : Rank → Int) (l : List Rank) : List Rank :=
  exchSortAux key l.length l

/-- `fuzzyFilter(term, targets)`: collect the positively-scoring targets in
input order, then reorder the collected ranks by strictly-decreasing score
comparisons with the exchange sort.  The Go expression
`targets[ranks[i].Index]` is embedded as `targets.getD r.index []`; the
collected indexes are always in range. -/
def fuzzyFilter (term : List Char) (targets : List (List Char)) : List Rank :=
  exchSort (fun r => fuzzyScore term (targets.getD r.index []))
    (collectRanks term targets 0)

/-- The positively-scoring candidates used to refute the stability part of
C3: two identical non-contiguous matches followed by an exact match. -/
def c3T1 : List Char := ['a', '-', 'b']

/-- An exact-substring candidate, scoring above `c3T1`. -/
def c3T2 : List Char := ['a', 'b']

/-- The search term for the C3 counterexample. -/
def c3Term : List Char := ['a', 'b']

/-- `weeklyModel.filterAnimeByDay` (src/main.go lines 543-551): iterate
`m.allAnime` in fetch order, keeping the entries whose episode date falls on
`day`. -/
def weeklyModel.filterAnimeByDay (m : weeklyModel) (day : Weekday) : List animeItem :=
  m.allAnime.filter (fun anime => weekdayOfTimestamp anime.anime.episodeDate == day)

/-- `weeklyModel.loadAllAnimeForFiltering` (lines 623-636): switch the list to
all anime across all days, label it "All Days" and enable filtering; no other
field of the model changes. -/
def weeklyModel.loadAllAnimeForFiltering (m : weeklyModel) : weeklyModel :=
  { m with
    list := { m.list with
              items := m.allAnime,
              title := "All Days",
              filteringEnabled := true } }

/-- `weeklyModel.updateListBasedOnFilterState` (lines 638-655): while the
filter is active (composing, or non-empty filter text) show all anime under
the "All Days" label; otherwise show the focused day's entries under the
focused day's padded name. -/
def weeklyModel.updateListBasedOnFilterState (m : weeklyModel) : weeklyModel :=
  if m.list.filterState == FilterState.filtering || !(m.list.filterValue == "") then
    { m with list := { m.list with items := m.allAnime, title := "All Days" } }
  else
    { m with
      list := { m.list with
                items := m.filterAnimeByDay m.focusedDay,
                title := padTo9 m.focusedDay.name } }

/-- Modelled from the spec: the cancel input while filtering is handled by
the external bubbles list collaborator (not part of src/), which returns the
filter state to unfiltered and clears the filter text. -/
def cancelFilter (l : ListState) : ListState :=
  { l with filterState := FilterState.unfiltered, filterValue := "" }

/-- The external list's cancel action applied to the model's list field. -/
def weeklyModel.cancelFilterInput (m : weeklyModel) : weeklyModel :=
  { m with list := cancelFilter m.list }

/-- The quit handling at the head of `weeklyModel.Update` (lines 397-408):
`q` and `ctrl+c` return `tea.Quit` unconditionally; `esc` does so only in
the weekly view outside of active filter composition.  No later branch of
`Update` quits, so this boolean is exactly "this key ends the session". -/
def weeklyModel.updateKeyQuit (m : weeklyModel) (keyString : String) : Bool :=
  if keyString == "q" || keyString == "ctrl+c" then true
  else if keyString == "esc" then
    m.state == appState.stateWeekly && !(m.list.filterState == FilterState.filtering)
  else false

/-- The environment `fetchTimetableCmd` runs in: the cache file's
modification time as reported by `os.Stat` (`none` on any stat failure), the
current clock, what the cache file deserializes to (`none` when absent,
unreadable or malformed), the `ANIMESCHEDULE_TOKEN` credential as resolved
by `getEnvVariable` from the environment or the `.env` file, the network
fetch's outcome, and whether writing the cache back succeeds.  Times and
durations are in seconds. -/
structure FetchEnv where
  statModTime : Option Int
  now : Int
  loadResult : Option (List AnimeTimetable)
  tokenEnv : Option String
  fetchResult : Except String (List AnimeTimetable)
  saveOk : Bool

/-- `isCacheValid` (lines 322-332): the stat must succeed and
`time.Since(modTime) < time.Hour` must hold. -/
def isCacheValid (env : FetchEnv) : Bool :=
  match env.statModTime with
  | none => false
  | some mt => env.now - mt < 3600

/-- What `fetchTimetableCmd` returns together with the effects it performed
on the way: the message delivered to `Update` (entries or an error), whether
the credential was consulted, whether the network fetcher ran, and whether a
cache write was attempted. -/
structure FetchOutcome where
  msg : Except String (List AnimeTimetable)
  tokenConsulted : Bool
  fetcherInvoked : Bool
  saveAttempted : Bool
deriving Repr

/-- The fall-through of `fetchTimetableCmd` past the cache (lines 342-366):
resolve the credential — returning the missing-credential error without
calling the network when it is absent — then fetch; report a fetch error, or
deliver the fetched entries after a best-effort cache write whose failure
only prints a warning and never alters the returned message (`saveOk` does
not influence `msg`). -/
def fetchFromNetwork (env : FetchEnv) : FetchOutcome :=
  match env.tokenEnv with
  | none =>
    { msg := Except.error "ANIMESCHEDULE_TOKEN environment variable not set",
      tokenConsulted := true, fetcherInvoked := false, saveAttempted := false }
  | some _ =>
    match env.fetchResult with
    | Except.error e =>
      { msg := Except.error e, tokenConsulted := true, fetcherInvoked := true,
        saveAttempted := false }
    | Except.ok timetable =>
      { msg := Except.ok timetable, tokenConsulted := true,
        fetcherInvoked := true, saveAttempted := true }

/-- `fetchTimetableCmd` (lines 334-367): serve a valid cache that loads
cleanly, without consulting the credential or the network; otherwise fall
through to the network path. -/
def fetchTimetableCmd (env : FetchEnv) : FetchOutcome :=
  if isCacheValid env then
    match env.loadResult with
    | some cachedTimetables =>
      { msg := Except.ok cachedTimetables, tokenConsulted := false,
        fetcherInvoked := false, saveAttempted := false }
    | none => fetchFromNetwork env
  else fetchFromNetwork env

/-- A Monday entry (timestamp 345800: day four of the epoch week plus 200
seconds) fetched first in the C1 counterexample. -/
def c1Item1 : animeItem := ⟨⟨"Show A", 345800, 1, "sub"⟩⟩

/-- A Monday entry with an earlier timestamp, fetched second. -/
def c1Item2 : animeItem := ⟨⟨"Show B", 345700, 2, "sub"⟩⟩

/-- A browsing model whose fetch order lists the later Monday timestamp
first. -/
def c1Model : weeklyModel :=
  { state := appState.stateWeekly, allAnime := [c1Item1, c1Item2],
    list := { items := [], title := "", filterState := FilterState.unfiltered,
              filterValue := "", filteringEnabled := false },
    focusedDay := Weekday.monday }

/-- The same two entries in ascending-timestamp fetch order, for the C1
witness. -/
def c1SortedModel : weeklyModel :=
  { c1Model with allAnime := [c1Item2, c1Item1] }

/-- A model in the middle of composing filter text, for the C2
counterexample. -/
def c2Model : weeklyModel :=
  { state := appState.stateWeekly, allAnime := [],
    list := { items := [], title := "All Days",
              filterState := FilterState.filtering, filterValue := "sho",
              filteringEnabled := true },
    focusedDay := Weekday.monday }

/-- A browsing model showing Monday's entries under Monday's padded label,
for the C9 witness. -/
def c9Model : weeklyModel :=
  { state := appState.stateWeekly, allAnime := [c1Item1, c1Item2],
    list := { items := [c1Item1, c1Item2], title := padTo9 Weekday.monday.name,
              filterState := FilterState.unfiltered, filterValue := "",
              filteringEnabled := false },
    focusedDay := Weekday.monday }

/-- An environment with a missing cache and no credential, for the C8
counterexample. -/
def c8Env : FetchEnv :=
  { statModTime := none, now := 0, loadResult := none, tokenEnv := none,
    fetchResult := Except.error "unreachable", saveOk := false }

/-- A warm-cache environment with no credential, for the C8 and C10
witnesses: the cache is 3000 seconds old and loads one entry. -/
def warmEnv : FetchEnv :=
  { statModTime := some 7000, now := 10000, loadResult := some [c1Item1.anime],
    tokenEnv := none, fetchResult := Except.error "no network", saveOk := false }

/-- An environment with a stale cache, a resolving credential, a successful
fetch and a failing cache write, for the C8 witness. -/
def c8FetchEnv : FetchEnv :=
  { statModTime := some 0, now := 10000, loadResult := none,
    tokenEnv := some "token", fetchResult := Except.ok [c1Item2.anime],
    saveOk := false }

/-- C4 counterexample: the claim asserts that for every non-empty query that
is a case-insensitive contiguous substring of the text the score is strictly
greater than 100.  For the 100-character query `c4Query` matched against
itself the score is `100 + (100 - 100) = 100`, which is not greater
than 100. -/
theorem c4_counterexample :
    c4Query ≠ [] ∧
    containsSub (c4Query.map Char.toLower) (c4Query.map Char.toLower) = true ∧
    fuzzyScore c4Query c4Query = 100 ∧
    ¬ 100 < fuzzyScore c4Query c4Query := by decide

/-- C4 (amended): for every non-empty query `q` that is a case-insensitive
contiguous substring of text `t`, `fuzzyScore q t = 100 + (100 - |q|)`, and
this score is strictly greater than 100 exactly when `|q| < 100`. -/
theorem c4_substring_score (query text : List Char) (hq : query ≠ [])
    (hsub : containsSub (text.map Char.toLower) (query.map Char.toLower) = true) :
    fuzzyScore query text = 100 + (100 - (query.length : Int)) ∧
    (100 < fuzzyScore query text ↔ query.length < 100) := by
  have hscore : fuzzyScore query text = 100 + (100 - (query.length : Int)) := by
    simp [fuzzyScore, List.map_eq_nil_iff, hq, hsub]
  refine ⟨hscore, ?_⟩
  rw [hscore]
  omega

/-- C4 witness: the one-character query `a` is a substring of `ba` and scores
`100 + (100 - 1) = 199`, which is greater than 100. -/
theorem c4_witness :
    fuzzyScore ['a'] ['b', 'a'] = 100 + (100 - ((['a'] : List Char).length : Int)) ∧
    (100 < fuzzyScore ['a'] ['b', 'a'] ↔ (['a'] : List Char).length < 100) :=
  c4_substring_score ['a'] ['b', 'a'] (by decide) (by decide)

/-- The subsequence loop consumes an empty query immediately: the unmatched
remainder is empty. -/
theorem fuzzyLoop_nil_query (t : List Char) (i s : Int) :
    (fuzzyLoop t [] i s).2 = [] := by
  induction t generalizing i s with
  | nil => rfl
  | cons c ts ih => exact ih _ _

/-- A sublist starting with `a` of a list starting with `b ≠ a` is a sublist
of the tail. -/
theorem sublist_cons_of_ne {α : Type} {a b : α} {l₁ l₂ : List α} (hab : a ≠ b)
    (h : List.Sublist (a :: l₁) (b :: l₂)) : List.Sublist (a :: l₁) l₂ := by
  cases h with
  | cons _ h => exact h
  | cons₂ => exact absurd rfl hab

/-- The greedy left-to-right loop consumes the whole query exactly when the
lower-cased query is a subsequence of the lower-cased text, for any starting
index and accumulator. -/
theorem fuzzyLoop_complete (t : List Char) : ∀ (q : List Char) (i s : Int),
    (fuzzyLoop t q i s).2 = [] ↔
      List.Sublist (q.map Char.toLower) (t.map Char.toLower) := by
  induction t with
  | nil =>
    intro q i s
    simp [fuzzyLoop, List.sublist_nil, List.map_eq_nil_iff]
  | cons c ts ih =>
    intro q i s
    cases q with
    | nil => simp [fuzzyLoop_nil_query, List.nil_sublist]
    | cons qc qs =>
      by_cases hc : c.toLower = qc.toLower
      · simp only [fuzzyLoop, if_pos hc, List.map_cons]
        rw [ih qs, ← hc]
        exact Iff.symm List.cons_sublist_cons
      · simp only [fuzzyLoop, if_neg hc, List.map_cons]
        rw [ih (qc :: qs)]
        constructor
        · intro h
          simpa using h.cons c.toLower
        · intro h
          simpa using sublist_cons_of_ne (fun e => hc e.symm) (by simpa using h)

/-- `Char.toLower` is idempotent: lowering an already-lowered character is
the identity. -/
theorem toLower_toLower (c : Char) : c.toLower.toLower = c.toLower := by
  by_cases h : c.toNat ≥ 65 ∧ c.toNat ≤ 90
  · have hc : c = Char.ofNat c.toNat := (Char.ofNat_toNat c).symm
    obtain ⟨h1, h2⟩ := h
    set m := c.toNat with hm
    interval_cases m <;> rw [hc] <;> decide
  · have hfix : c.toLower = c := by
      show (if c.toNat ≥ 65 ∧ c.toNat ≤ 90 then Char.ofNat (c.toNat + 32) else c) = c
      rw [if_neg h]
    rw [hfix, hfix]

/-- Lower-casing a list of characters is idempotent. -/
theorem map_toLower_idem (l : List Char) :
    (l.map Char.toLower).map Char.toLower = l.map Char.toLower := by
  induction l with
  | nil => rfl
  | cons c t ih => simp [toLower_toLower, ih]

/-- C5: for every non-empty query `q` that is not a case-insensitive
contiguous substring of text `t`, `fuzzyScore q t` is the accumulated score
of the left-to-right scan (awarding `10 + max 0 (50 - textIndex)` per
in-order match), plus a flat +20 bonus exactly when the lower-cased query is
a subsequence of the lower-cased text; otherwise the accumulated partial
score, which may be 0, is returned as is. -/
theorem c5_subsequence_score (query text : List Char) (hq : query ≠ [])
    (hsub : containsSub (text.map Char.toLower) (query.map Char.toLower) = false) :
    fuzzyScore query text =
      (fuzzyLoop (text.map Char.toLower) (query.map Char.toLower) 0 0).1 +
        (if List.Sublist (query.map Char.toLower) (text.map Char.toLower)
          then 20 else 0) := by
  have hiff : (fuzzyLoop (text.map Char.toLower) (query.map Char.toLower) 0 0).2 = [] ↔
      List.Sublist (query.map Char.toLower) (text.map Char.toLower) := by
    rw [fuzzyLoop_complete, map_toLower_idem, map_toLower_idem]
  by_cases hss : List.Sublist (query.map Char.toLower) (text.map Char.toLower)
  · have h2 : (fuzzyLoop (text.map Char.toLower) (query.map Char.toLower) 0 0).2 = [] :=
      hiff.mpr hss
    simp [fuzzyScore, List.map_eq_nil_iff, hq, hsub, h2, hss]
  · have h2 : ¬ (fuzzyLoop (text.map Char.toLower) (query.map Char.toLower) 0 0).2 = [] :=
      fun h => hss (hiff.mp h)
    simp [fuzzyScore, List.map_eq_nil_iff, hq, hsub, h2, hss]

/-- C5 witness: the query `xy` is not a substring of the text `y`, matches no
character of it in order starting from `x`, is not a subsequence of it, and
therefore scores the accumulated partial score 0 with no bonus. -/
theorem c5_witness :
    fuzzyScore ['x', 'y'] ['y'] =
      (fuzzyLoop (['y'].map Char.toLower) (['x', 'y'].map Char.toLower) 0 0).1 +
        (if List.Sublist (['x', 'y'].map Char.toLower) (['y'].map Char.toLower)
          then 20 else 0) :=
  c5_subsequence_score ['x', 'y'] ['y'] (by decide) (by decide)

/-- The suffix left behind by one inner pass has the length of the input. -/
theorem selectMax_length (key : Rank → Int) (x : Rank) (l : List Rank) :
    (selectMax key x l).2.length = l.length := by
  induction l generalizing x with
  | nil => rfl
  | cons y ys ih =>
    unfold selectMax
    split <;> simp [ih]

/-- One inner pass permutes its input: held maximum plus leftover suffix is a
rearrangement of the held element plus the original suffix. -/
theorem selectMax_perm (key : Rank → Int) (x : Rank) (l : List Rank) :
    List.Perm ((selectMax key x l).1 :: (selectMax key x l).2) (x :: l) := by
  induction l generalizing x with
  | nil => exact List.Perm.refl _
  | cons y ys ih =>
    unfold selectMax
    split
    · exact (List.Perm.swap x _ _).trans ((ih y).cons x)
    · exact (List.Perm.swap y _ _).trans (((ih x).cons y).trans (List.Perm.swap x y ys))

/-- The element held at the end of one inner pass is a maximum: it dominates
the initially held element and everything left behind. -/
theorem selectMax_le (key : Rank → Int) (x : Rank) (l : List Rank) :
    key x ≤ key (selectMax key x l).1 ∧
    ∀ z ∈ (selectMax key x l).2, key z ≤ key (selectMax key x l).1 := by
  induction l generalizing x with
  | nil =>
    refine ⟨le_refl _, ?_⟩
    intro z hz
    simp [selectMax] at hz
  | cons y ys ih =>
    unfold selectMax
    split
    · rename_i hxy
      refine ⟨le_of_lt (lt_of_lt_of_le hxy (ih y).1), ?_⟩
      intro z hz
      rcases List.mem_cons.mp hz with h | h
      · subst h; exact le_of_lt (lt_of_lt_of_le hxy (ih y).1)
      · exact (ih y).2 z h
    · rename_i hxy
      have hyx : key y ≤ key x := le_of_not_lt hxy
      refine ⟨(ih x).1, ?_⟩
      intro z hz
      rcases List.mem_cons.mp hz with h | h
      · subst h; exact le_trans hyx (ih x).1
      · exact (ih x).2 z h

/-- With fuel equal to the list length, the exchange sort permutes its
input. -/
theorem exchSortAux_perm (key : Rank → Int) :
    ∀ (n : Nat) (l : List Rank), l.length = n →
      List.Perm (exchSortAux key n l) l := by
  intro n
  induction n with
  | zero =>
    intro l hl
    rw [List.length_eq_zero] at hl
    subst hl
    exact List.Perm.refl _
  | succ n ih =>
    intro l hl
    cases l with
    | nil => exact List.Perm.refl _
    | cons x xs =>
      have hrest : (selectMax key x xs).2.length = n := by
        rw [selectMax_length]
        simpa using hl
      exact ((ih _ hrest).cons _).trans (selectMax_perm key x xs)

/-- With fuel equal to the list length, the exchange sort's output is sorted
by non-increasing key. -/
theorem exchSortAux_sorted (key : Rank → Int) :
    ∀ (n : Nat) (l : List Rank), l.length = n →
      (exchSortAux key n l).Pairwise (fun a b => key b ≤ key a) := by
  intro n
  induction n with
  | zero =>
    intro l hl
    rw [List.length_eq_zero] at hl
    subst hl
    exact List.Pairwise.nil
  | succ n ih =>
    intro l hl
    cases l with
    | nil => exact List.Pairwise.nil
    | cons x xs =>
      have hrest : (selectMax key x xs).2.length = n := by
        rw [selectMax_length]
        simpa using hl
      refine List.Pairwise.cons ?_ (ih _ hrest)
      intro b hb
      have hb' : b ∈ (selectMax key x xs).2 :=
        (exchSortAux_perm key n _ hrest).mem_iff.mp hb
      exact (selectMax_le key x xs).2 b hb'

/-- The exchange sort permutes its input. -/
theorem exchSort_perm (key : Rank → Int) (l : List Rank) :
    List.Perm (exchSort key l) l :=
  exchSortAux_perm key l.length l rfl

/-- The exchange sort's output is sorted by non-increasing key. -/
theorem exchSort_sorted (key : Rank → Int) (l : List Rank) :
    (exchSort key l).Pairwise (fun a b => key b ≤ key a) :=
  exchSortAux_sorted key l.length l rfl

/-- Membership in the collection loop's output: exactly the in-range indexes
(shifted by the starting position `i`) whose target scores strictly
positively, always with nil matched indexes. -/
theorem mem_collectRanks (term : List Char) :
    ∀ (ts : List (List Char)) (i : Nat) (r : Rank),
      r ∈ collectRanks term ts i ↔
        (r.matchedIndexes = [] ∧ i ≤ r.index ∧ r.index - i < ts.length ∧
          0 < fuzzyScore term (ts.getD (r.index - i) [])) := by
  intro ts
  induction ts with
  | nil =>
    intro i r
    simp [collectRanks]
  | cons t rest ih =>
    intro i r
    unfold collectRanks
    split
    · rename_i hpos
      rw [List.mem_cons, ih (i + 1)]
      constructor
      · rintro (rfl | ⟨hmi, hle, hlt, hsc⟩)
        · exact ⟨rfl, le_refl _, by simp, by simpa using hpos⟩
        · refine ⟨hmi, by omega, ?_, ?_⟩
          · simp only [List.length_cons]
            omega
          · have hsh : r.index - i = (r.index - (i + 1)) + 1 := by omega
            rw [hsh, List.getD_cons_succ]
            exact hsc
      · rintro ⟨hmi, hle, hlt, hsc⟩
        by_cases heq : r.index = i
        · left
          cases r with
          | mk idx mi =>
            simp only at hmi heq
            subst hmi
            subst heq
            rfl
        · right
          refine ⟨hmi, by omega, ?_, ?_⟩
          · simp only [List.length_cons] at hlt
            omega
          · have hsh : r.index - i = (r.index - (i + 1)) + 1 := by omega
            rw [hsh, List.getD_cons_succ] at hsc
            exact hsc
    · rename_i hneg
      rw [ih (i + 1)]
      constructor
      · rintro ⟨hmi, hle, hlt, hsc⟩
        refine ⟨hmi, by omega, ?_, ?_⟩
        · simp only [List.length_cons]
          omega
        · have hsh : r.index - i = (r.index - (i + 1)) + 1 := by omega
          rw [hsh, List.getD_cons_succ]
          exact hsc
      · rintro ⟨hmi, hle, hlt, hsc⟩
        by_cases heq : r.index = i
        · exfalso
          rw [heq, Nat.sub_self, List.getD_cons_zero] at hsc
          exact hneg hsc
        · refine ⟨hmi, by omega, ?_, ?_⟩
          · simp only [List.length_cons] at hlt
            omega
          · have hsh : r.index - i = (r.index - (i + 1)) + 1 := by omega
            rw [hsh, List.getD_cons_succ] at hsc
            exact hsc

/-- C3 counterexample: the claim asserts ties among equal scores are
preserved in the candidates' original input order.  For term `ab` over
candidates `[a-b, a-b, ab]`, candidates 0 and 1 are identical (equal
scores), yet the exchange sort swaps them: the result lists index 1 before
index 0, so the sort is not stable. -/
theorem c3_counterexample :
    fuzzyFilter c3Term [c3T1, c3T1, c3T2] = [⟨2, []⟩, ⟨1, []⟩, ⟨0, []⟩] ∧
    fuzzyScore c3Term ([c3T1, c3T1, c3T2].getD 0 []) =
      fuzzyScore c3Term ([c3T1, c3T1, c3T2].getD 1 []) := by decide

/-- C3 (amended): `fuzzyFilter` returns exactly the candidates whose score
against the term is strictly positive (as a permutation of the collection
loop's output, which lists them in input order, always with nil matched
indexes), ordered by non-increasing score; ties among equal scores may
however be reordered, because the exchange sort is not stable. -/
theorem c3_fuzzyFilter_ranked (term : List Char) (targets : List (List Char)) :
    List.Perm (fuzzyFilter term targets) (collectRanks term targets 0) ∧
    (∀ r : Rank, r ∈ fuzzyFilter term targets ↔
      (r.matchedIndexes = [] ∧ r.index < targets.length ∧
        0 < fuzzyScore term (targets.getD r.index []))) ∧
    (fuzzyFilter term targets).Pairwise
      (fun a b => fuzzyScore term (targets.getD b.index []) ≤
        fuzzyScore term (targets.getD a.index [])) := by
  refine ⟨exchSort_perm _ _, ?_, exchSort_sorted _ _⟩
  intro r
  unfold fuzzyFilter
  rw [(exchSort_perm _ _).mem_iff, mem_collectRanks]
  simp

/-- C6: day navigation is a cyclic group of order 7 over
Monday→…→Sunday→Monday: from any of the seven weekdays, applying
`getNextDay` seven times returns to the start, and `getPreviousDay` is the
exact two-sided inverse of `getNextDay`. -/
theorem c6_day_navigation_cyclic (d : Weekday) :
    getNextDay^[7] d = d ∧
    getPreviousDay (getNextDay d) = d ∧
    getNextDay (getPreviousDay d) = d := by
  cases d <;> exact ⟨rfl, rfl, rfl⟩

/-- C1 counterexample: the claim asserts the visible sequence for a weekday
is sorted ascending by episode timestamp; with the two Monday entries
fetched in descending timestamp order, `filterAnimeByDay` returns them in
fetch order, unsorted. -/
theorem c1_counterexample :
    c1Model.filterAnimeByDay Weekday.monday = [c1Item1, c1Item2] ∧
    ¬ (c1Model.filterAnimeByDay Weekday.monday).Pairwise
        (fun a b => a.anime.episodeDate ≤ b.anime.episodeDate) := by
  refine ⟨rfl, ?_⟩
  intro h
  have h' : List.Pairwise (fun a b => a.anime.episodeDate ≤ b.anime.episodeDate)
      [c1Item1, c1Item2] := h
  exact absurd ((List.pairwise_cons.mp h').1 c1Item2 (by simp)) (by decide)

/-- C1 (amended): for every fetched entry list and every weekday `d`,
`filterAnimeByDay` performs no sorting: its result is an order-preserving
sub-sequence of the fetched list (fetch order), its members are exactly the
fetched entries whose episode timestamp falls on day `d`, and its length is
the number of such entries (so none is dropped or duplicated); consequently
the visible sequence for day `d` is sorted ascending by episode timestamp
whenever the fetched list itself is, ties then staying in fetch order
because nothing is reordered — while an unsorted fetch order is displayed
unsorted, as the counterexample shows. -/
theorem c1_filterAnimeByDay_fetch_order (m : weeklyModel) (d : Weekday) :
    List.Sublist (m.filterAnimeByDay d) m.allAnime ∧
    (∀ a : animeItem, a ∈ m.filterAnimeByDay d ↔
      a ∈ m.allAnime ∧ weekdayOfTimestamp a.anime.episodeDate = d) ∧
    (m.filterAnimeByDay d).length =
      m.allAnime.countP
        (fun a => weekdayOfTimestamp a.anime.episodeDate == d) ∧
    (m.allAnime.Pairwise (fun a b => a.anime.episodeDate ≤ b.anime.episodeDate) →
      (m.filterAnimeByDay d).Pairwise
        (fun a b => a.anime.episodeDate ≤ b.anime.episodeDate)) := by
  refine ⟨List.filter_sublist _, ?_, ?_,
    fun hsorted => hsorted.sublist (List.filter_sublist _)⟩
  · intro a
    simp [weeklyModel.filterAnimeByDay, List.mem_filter]
  · exact (List.countP_eq_length_filter _ _).symm

/-- C1 witness: on the concrete two-entry fetch list in ascending timestamp
order, the Monday bucket is a fetch-order sub-sequence, contains the first
fetched entry, and — the fetched list being sorted — is sorted. -/
theorem c1_witness :
    List.Sublist (c1SortedModel.filterAnimeByDay Weekday.monday)
      c1SortedModel.allAnime ∧
    c1Item2 ∈ c1SortedModel.filterAnimeByDay Weekday.monday ∧
    (c1SortedModel.filterAnimeByDay Weekday.monday).Pairwise
      (fun a b => a.anime.episodeDate ≤ b.anime.episodeDate) :=
  ⟨(c1_filterAnimeByDay_fetch_order c1SortedModel Weekday.monday).1,
   ((c1_filterAnimeByDay_fetch_order c1SortedModel Weekday.monday).2.1
       c1Item2).mpr (by decide),
   (c1_filterAnimeByDay_fetch_order c1SortedModel Weekday.monday).2.2.2
     (by decide)⟩

/-- C2 counterexample: the claim asserts that while the user is actively
composing filter text, a quit key other than the dedicated cancel key is
consumed as ordinary filter text; but `Update` returns `tea.Quit` for `q`
unconditionally, even while composing. -/
theorem c2_counterexample :
    c2Model.list.filterState = FilterState.filtering ∧
    c2Model.updateKeyQuit "q" = true :=
  ⟨rfl, rfl⟩

/-- C2 (amended): `q` and `ctrl+c` end the session in every state, including
while composing filter text; `esc` ends the session only in the weekly view
while not composing filter text (while composing it is passed through to the
list as the filter-cancel key); no other key quits. -/
theorem c2_quit_keys (m : weeklyModel) (keyString : String) :
    m.updateKeyQuit keyString = true ↔
      (keyString = "q" ∨ keyString = "ctrl+c" ∨
        (keyString = "esc" ∧ m.state = appState.stateWeekly ∧
          m.list.filterState ≠ FilterState.filtering)) := by
  unfold weeklyModel.updateKeyQuit
  by_cases h1 : keyString = "q"
  · simp [h1]
  · by_cases h2 : keyString = "ctrl+c"
    · simp [h1, h2]
    · by_cases h3 : keyString = "esc"
      · simp [h1, h2, h3]
      · simp [h1, h2, h3]

/-- Bucketing a list of entries by weekday accounts for every entry exactly
once: the bucket sizes over the seven fixed days sum to the list's length. -/
theorem bucket_length_sum (l : List animeItem) :
    (daysOrder.map fun d =>
      (l.filter fun a => weekdayOfTimestamp a.anime.episodeDate == d).length).sum
      = l.length := by
  induction l with
  | nil => rfl
  | cons a t ih =>
    cases hw : weekdayOfTimestamp a.anime.episodeDate <;>
      simp [daysOrder, List.filter_cons, hw] at ih ⊢ <;> omega

/-- C7: the seven weekday buckets partition the fetched entry list exactly:
the bucket lengths sum to the total length; membership in bucket `d` is
membership in the fetched list together with the entry's timestamp falling
on `d` (the weekday function is total, so even a zero or garbage timestamp
lands in some bucket); and every fetched entry lies in exactly one
bucket. -/
theorem c7_buckets_partition (m : weeklyModel) :
    ((daysOrder.map fun d => (m.filterAnimeByDay d).length).sum
        = m.allAnime.length) ∧
    (∀ (a : animeItem) (d : Weekday),
      a ∈ m.filterAnimeByDay d ↔
        a ∈ m.allAnime ∧ weekdayOfTimestamp a.anime.episodeDate = d) ∧
    (∀ a ∈ m.allAnime, ∃! d : Weekday, a ∈ m.filterAnimeByDay d) := by
  refine ⟨bucket_length_sum m.allAnime, ?_, ?_⟩
  · intro a d
    simp [weeklyModel.filterAnimeByDay, List.mem_filter]
  · intro a ha
    refine ⟨weekdayOfTimestamp a.anime.episodeDate, ?_, ?_⟩
    · simp [weeklyModel.filterAnimeByDay, List.mem_filter, ha]
    · intro d hd
      have hmem := (List.mem_filter.mp hd).2
      simp at hmem
      exact hmem.symm

/-- C7 witness: on the concrete two-entry model the bucket sizes sum to 2,
and the first entry lies in the Monday bucket. -/
theorem c7_witness :
    ((daysOrder.map fun d => (c1Model.filterAnimeByDay d).length).sum
        = c1Model.allAnime.length) ∧
    c1Item1 ∈ c1Model.filterAnimeByDay Weekday.monday :=
  ⟨(c7_buckets_partition c1Model).1,
   ((c7_buckets_partition c1Model).2.1 c1Item1 Weekday.monday).mpr (by decide)⟩

/-- C9: from a browsing model (unfiltered, empty filter text) showing the
focused day's entries under the focused day's label, entering filter mode
(`loadAllAnimeForFiltering`) and then cancelling (the external list clears
the filter; `updateListBasedOnFilterState` then recomputes the view)
restores exactly the previous visible set and label; and the focused weekday
is modified neither by entering filter mode nor by recomputing the view in
any filter state. -/
theorem c9_filter_cancel_roundtrip (m : weeklyModel)
    (hfs : m.list.filterState = FilterState.unfiltered)
    (hfv : m.list.filterValue = "")
    (hitems : m.list.items = m.filterAnimeByDay m.focusedDay)
    (htitle : m.list.title = padTo9 m.focusedDay.name) :
    ((m.loadAllAnimeForFiltering).cancelFilterInput).updateListBasedOnFilterState.list.items
        = m.list.items ∧
    ((m.loadAllAnimeForFiltering).cancelFilterInput).updateListBasedOnFilterState.list.title
        = m.list.title ∧
    ((m.loadAllAnimeForFiltering).cancelFilterInput).updateListBasedOnFilterState.focusedDay
        = m.focusedDay ∧
    (m.loadAllAnimeForFiltering).focusedDay = m.focusedDay ∧
    (∀ mm : weeklyModel,
      mm.updateListBasedOnFilterState.focusedDay = mm.focusedDay) ∧
    (∀ mm : weeklyModel,
      mm.loadAllAnimeForFiltering.focusedDay = mm.focusedDay) := by
  have hupd : ∀ mm : weeklyModel,
      mm.updateListBasedOnFilterState.focusedDay = mm.focusedDay := by
    intro mm
    unfold weeklyModel.updateListBasedOnFilterState
    split <;> rfl
  refine ⟨?_, ?_, ?_, rfl, hupd, fun mm => rfl⟩ <;>
    simp [weeklyModel.loadAllAnimeForFiltering, weeklyModel.cancelFilterInput,
          cancelFilter, weeklyModel.updateListBasedOnFilterState,
          weeklyModel.filterAnimeByDay, hitems, htitle]

/-- C9 witness: the round trip on the concrete Monday browsing model. -/
theorem c9_witness :
    ((c9Model.loadAllAnimeForFiltering).cancelFilterInput).updateListBasedOnFilterState.list.items
        = c9Model.list.items ∧
    ((c9Model.loadAllAnimeForFiltering).cancelFilterInput).updateListBasedOnFilterState.list.title
        = c9Model.list.title ∧
    ((c9Model.loadAllAnimeForFiltering).cancelFilterInput).updateListBasedOnFilterState.focusedDay
        = c9Model.focusedDay ∧
    (c9Model.loadAllAnimeForFiltering).focusedDay = c9Model.focusedDay ∧
    (∀ mm : weeklyModel,
      mm.updateListBasedOnFilterState.focusedDay = mm.focusedDay) ∧
    (∀ mm : weeklyModel,
      mm.loadAllAnimeForFiltering.focusedDay = mm.focusedDay) :=
  c9_filter_cancel_roundtrip c9Model rfl rfl (by decide) rfl

/-- When the cache is invalid, or valid but its contents fail to load,
`fetchTimetableCmd` takes the network path. -/
theorem fetchTimetableCmd_network (env : FetchEnv)
    (h : isCacheValid env = false ∨ env.loadResult = none) :
    fetchTimetableCmd env = fetchFromNetwork env := by
  rcases h with h | h
  · simp [fetchTimetableCmd, h]
  · unfold fetchTimetableCmd
    rw [h]
    split <;> rfl

/-- C8 counterexample: the claim asserts that on a missing, stale or
unloadable cache the fetcher is invoked; but when the credential is also
missing, `fetchTimetableCmd` returns the missing-credential error without
ever invoking the fetcher. -/
theorem c8_counterexample :
    isCacheValid c8Env = false ∧
    c8Env.loadResult = none ∧
    (fetchTimetableCmd c8Env).fetcherInvoked = false ∧
    (fetchTimetableCmd c8Env).msg =
      Except.error "ANIMESCHEDULE_TOKEN environment variable not set" :=
  ⟨rfl, rfl, rfl, rfl⟩

/-- C8 (amended): at startup, (1) if the cache file's stat succeeds with a
modification time within 1 hour of the current time and its contents load
successfully, the cached entries are served and neither the credential nor
the fetcher is consulted; (2) any stat failure invalidates the cache; (3) on
an invalid or unloadable cache the network path is taken instead — the
fetcher is invoked provided the credential resolves, while a missing
credential yields the missing-credential error without a fetch; and (4) a
failure to save freshly fetched entries does not prevent their delivery:
the delivered message is the fetched list regardless of `saveOk`. -/
theorem c8_cache_flow (env : FetchEnv) :
    (∀ mt ts, env.statModTime = some mt → (env.now - mt).natAbs < 3600 →
      env.loadResult = some ts →
      fetchTimetableCmd env =
        { msg := Except.ok ts, tokenConsulted := false,
          fetcherInvoked := false, saveAttempted := false }) ∧
    (env.statModTime = none → isCacheValid env = false) ∧
    (isCacheValid env = false ∨ env.loadResult = none →
      ((env.tokenEnv ≠ none → (fetchTimetableCmd env).fetcherInvoked = true) ∧
       (env.tokenEnv = none → (fetchTimetableCmd env).msg =
          Except.error "ANIMESCHEDULE_TOKEN environment variable not set"))) ∧
    (∀ ts, env.fetchResult = Except.ok ts →
      (isCacheValid env = false ∨ env.loadResult = none) →
      env.tokenEnv ≠ none →
      (fetchTimetableCmd env).msg = Except.ok ts) := by
  refine ⟨?_, ?_, ?_, ?_⟩
  · intro mt ts hmt hwin hload
    have hvalid : isCacheValid env = true := by
      simp [isCacheValid, hmt]
      omega
    simp [fetchTimetableCmd, hvalid, hload]
  · intro h
    simp [isCacheValid, h]
  · intro hmiss
    rw [fetchTimetableCmd_network env hmiss]
    constructor
    · intro htok
      cases ht : env.tokenEnv with
      | none => exact absurd ht htok
      | some tok =>
        cases hf : env.fetchResult <;> simp [fetchFromNetwork, ht, hf]
    · intro htok
      simp [fetchFromNetwork, htok]
  · intro ts hf hmiss htok
    rw [fetchTimetableCmd_network env hmiss]
    cases ht : env.tokenEnv with
    | none => exact absurd ht htok
    | some tok => simp [fetchFromNetwork, ht, hf]

/-- C8 witness: a warm cache that loads is served without consulting the
credential or the network, and on a stale cache with a resolving credential
and a failing cache write the freshly fetched entries are still
delivered. -/
theorem c8_witness :
    fetchTimetableCmd warmEnv =
      { msg := Except.ok [c1Item1.anime], tokenConsulted := false,
        fetcherInvoked := false, saveAttempted := false } ∧
    (fetchTimetableCmd c8FetchEnv).msg = Except.ok [c1Item2.anime] :=
  ⟨(c8_cache_flow warmEnv).1 7000 [c1Item1.anime] rfl (by decide) rfl,
   (c8_cache_flow c8FetchEnv).2.2.2 [c1Item2.anime] rfl (Or.inl rfl)
     (by decide)⟩

/-- C10: when the cache is valid and its contents load successfully, the
`ANIMESCHEDULE_TOKEN` credential is never consulted and the cached entries
are delivered (so a warm cache lets a session with no credential reach
browsing); conversely the missing-credential error can only arise once the
cache was found invalid or unloadable. -/
theorem c10_warm_cache_no_token (env : FetchEnv) :
    (∀ ts, isCacheValid env = true → env.loadResult = some ts →
      (fetchTimetableCmd env).tokenConsulted = false ∧
      (fetchTimetableCmd env).msg = Except.ok ts) ∧
    ((fetchTimetableCmd env).msg =
        Except.error "ANIMESCHEDULE_TOKEN environment variable not set" →
      ¬ (isCacheValid env = true ∧ ∃ ts, env.loadResult = some ts)) := by
  constructor
  · intro ts hv hl
    simp [fetchTimetableCmd, hv, hl]
  · rintro herr ⟨hv, ts, hl⟩
    simp [fetchTimetableCmd, hv, hl] at herr

/-- C10 witness: the warm-cache environment with no credential delivers its
cached entry without consulting the credential. -/
theorem c10_witness :
    (fetchTimetableCmd warmEnv).tokenConsulted = false ∧
    (fetchTimetableCmd warmEnv).msg = Except.ok [c1Item1.anime] :=
  (c10_warm_cache_no_token warmEnv).1 [c1Item1.anime] rfl rfl

end Baka
